import Mathlib

/-!
Verification development for the Image-Transition morphing tool
(src/myscript.js).

This file gives a shallow embedding of the engine: the `Triangulator`
class (effective point list, triangles, edge dedup, addPoint), the
`warpImage` renderer, the app methods that keep the two point lists in
correspondence (`onAdded`, `onDeleted`, `clear`, `stopAnim`, `warp`)
and the drag-tracker callback that clamps or marks points for deletion.

Modelling conventions:
* JS numbers are rationals (`ℚ`); JS `Math.round(x)` is `⌊x + 1/2⌋`.
* Point lists are Lean lists; JS array index access `a[i]` that can
  yield `undefined` is `List.getElem?`.
* The Delaunay library is a parameter treated as a black box: a
  function from the coordinate list to a flat list of indices
  ("arranged in triplets"), exactly as the code treats it.
* Functions not in the repository (ABOUtils.Math.clamp / lerp, the
  ud.animate animation handles) are modelled from the spec and are
  marked as such in their doc comments.
-/

namespace MorphTool

/-- JS Math.round: Math.round(x) = ⌊x + 1/2⌋ (half rounds up, also for
negative arguments, matching JS semantics). -/
def mathRound (q : ℚ) : ℤ := ⌊q + 1/2⌋

/-- A 2D coordinate: a JS `[x, y]` array. -/
abbrev Coord : Type := ℚ × ℚ

/-- Modelled from the spec: `ABOUtils.Math.clamp` is not part of this
repository; the spec says coordinates are "clamped to
`[0,width] × [0,height]`", so `clamp x lo hi` restricts `x` to
`[lo, hi]`. -/
def clamp (x lo hi : ℚ) : ℚ := max lo (min hi x)

/-- A point object `{ coord, toDelete }`. In the source `toDelete` is an
absent (hence falsy) field until the drag callback sets it; we model it
as a `Bool` that starts out `false`. -/
structure Point where
  coord : Coord
  toDelete : Bool
  deriving DecidableEq, Repr

/-- The domain size `{ w, h }` of a `Triangulator`. -/
structure Size where
  w : ℚ
  h : ℚ
  deriving DecidableEq, Repr

/-- The `Triangulator` class state: a domain size and the owned point
list. -/
structure Triangulator where
  size : Size
  points : List Point
  deriving DecidableEq, Repr

/-- `Triangulator.createPoint(coord)`: rounds each coordinate
(`coord.map(Math.round)`) and starts without the `toDelete` flag. -/
def createPoint (c : Coord) : Point :=
  { coord := ((mathRound c.1 : ℚ), (mathRound c.2 : ℚ)), toDelete := false }

/-- The four corner points built at the top of `getEffectivePoints`:
`createPoint` applied to `[0,0]`, `[w,0]`, `[0,h]`, `[w,h]` (so their
coordinates go through `Math.round`). -/
def corners (sz : Size) : List Point :=
  [createPoint (0, 0), createPoint (sz.w, 0), createPoint (0, sz.h),
   createPoint (sz.w, sz.h)]

/-- `getEffectivePoints()`: the corners followed by every owned point
whose `toDelete` flag is not set. -/
def getEffectivePoints (T : Triangulator) : List Point :=
  corners T.size ++ T.points.filter (fun p => !p.toDelete)

/-- The coordinate list `this.getEffectivePoints().map(p => p.coord)`
used by `getTriangles` and `warpImage`. -/
def effCoords (T : Triangulator) : List Coord :=
  (getEffectivePoints T).map Point.coord

/-- `addPoint(coord)`: push `createPoint(coord)` at the end of the
list. -/
def addPoint (T : Triangulator) (c : Coord) : Triangulator :=
  { T with points := T.points ++ [createPoint c] }

/-- The `clear()` method: `tri1.points = []; tri2.points = []`. -/
def clear (s : Triangulator × Triangulator) : Triangulator × Triangulator :=
  ({ s.1 with points := [] }, { s.2 with points := [] })

/-- A Triangulator with the fractional domain width 1/2, showing that
the corner coordinates go through `Math.round`. -/
def halfT : Triangulator := { size := { w := 1/2, h := 1 }, points := [] }

theorem mathRound_eq {q : ℚ} {n : ℤ} (h1 : (n : ℚ) ≤ q + 1/2)
    (h2 : q + 1/2 < n + 1) : mathRound q = n := by
  rw [mathRound]
  exact Int.floor_eq_iff.mpr ⟨h1, by exact_mod_cast h2⟩

theorem mathRound_zero : mathRound 0 = 0 :=
  mathRound_eq (by norm_num) (by norm_num)

theorem mathRound_one : mathRound 1 = 1 :=
  mathRound_eq (by norm_num) (by norm_num)

theorem mathRound_half : mathRound (1/2) = 1 :=
  mathRound_eq (by norm_num) (by norm_num)

theorem mathRound_two_inv : mathRound 2⁻¹ = 1 :=
  mathRound_eq (by norm_num) (by norm_num)

/-- C6 (amended): the effective point list always begins with the four
corner points as the code constructs them — coordinates rounded by
`Math.round`, i.e. `(0,0)`, `(round w, 0)`, `(0, round h)`,
`(round w, round h)`, which are exactly `(0,0),(w,0),(0,h),(w,h)`
whenever `w` and `h` are integers — followed by all points not marked
for deletion, in insertion order. -/
theorem effectivePoints_shape (T : Triangulator) :
    (getEffectivePoints T).take 4 = corners T.size ∧
    (getEffectivePoints T).drop 4 = T.points.filter (fun p => !p.toDelete) ∧
    corners T.size =
      [{ coord := (0, 0), toDelete := false },
       { coord := ((mathRound T.size.w : ℚ), 0), toDelete := false },
       { coord := (0, (mathRound T.size.h : ℚ)), toDelete := false },
       { coord := ((mathRound T.size.w : ℚ), (mathRound T.size.h : ℚ)),
         toDelete := false }] := by
  refine ⟨?_, ?_, ?_⟩ <;>
    simp [getEffectivePoints, corners, createPoint, mathRound_zero]

/-- C6 counterexample: for the domain size (1/2, 1) the effective point
list begins with `(0,0),(1,0),(0,1),(1,1)` — the second and fourth
corners are `(1,·)`, not `(1/2,·)` as the claim's
`(0,0),(w,0),(0,h),(w,h)` requires, because `createPoint` rounds. -/
theorem corners_rounded_cex :
    effCoords halfT = [(0, 0), (1, 0), (0, 1), (1, 1)] ∧
    ([((0 : ℚ), (0 : ℚ)), (1, 0), (0, 1), (1, 1)] : List Coord) ≠
      [((0 : ℚ), (0 : ℚ)), (1/2, 0), (0, 1), (1/2, 1)] := by
  constructor
  · simp [effCoords, halfT, getEffectivePoints, corners, createPoint,
      mathRound_zero, mathRound_one, mathRound_half, mathRound_two_inv]
  · norm_num [Prod.ext_iff]

/-- C10: `clear()` empties both meshes' point lists in one step; both
lengths are 0 afterwards (the correspondence length invariant holds),
and each mesh's effective point list is exactly its four corner
points. -/
theorem clear_resets (s : Triangulator × Triangulator) :
    (clear s).1.points = [] ∧ (clear s).2.points = [] ∧
    (clear s).1.points.length = (clear s).2.points.length ∧
    getEffectivePoints (clear s).1 = corners s.1.size ∧
    getEffectivePoints (clear s).2 = corners s.2.size ∧
    (corners s.1.size).length = 4 := by
  refine ⟨rfl, rfl, rfl, ?_, ?_, rfl⟩ <;>
    simp [clear, getEffectivePoints]

/-- The loop in `getTriangles` over the flat array the Delaunay library
returns ("it will return you a giant array, arranged in triplets"):
chunk it into triples `(a, b, c)`. -/
def toTriples : List ℕ → List (ℕ × ℕ × ℕ)
  | a :: b :: c :: rest => (a, b, c) :: toTriples rest
  | _ => []

/-- `getTriangles(true)`: triangulate the effective coordinate list with
the Delaunay oracle `d` (a black box, exactly as the code treats
`Delaunay.triangulate`) and return index triples. The source is a single
function with an `indexes` flag; the flag-false variant is
`getTrianglesCo` below. -/
def getTriangles (d : List Coord → List ℕ) (T : Triangulator) :
    List (ℕ × ℕ × ℕ) :=
  toTriples (d (effCoords T))

/-- Resolve index triples in a coordinate list: `coords[a]` in JS, which
is `undefined` (here `none`) when the index is out of range. -/
def resolveTriples (coords : List Coord) (ts : List (ℕ × ℕ × ℕ)) :
    List (Option Coord × Option Coord × Option Coord) :=
  ts.map fun t => (coords[t.1]?, coords[t.2.1]?, coords[t.2.2]?)

/-- `getTriangles()` with the `indexes` flag unset (as `getEdges` calls
it): the triples resolved to coordinates. -/
def getTrianglesCo (d : List Coord → List ℕ) (T : Triangulator) :
    List (Option Coord × Option Coord × Option Coord) :=
  resolveTriples (effCoords T) (getTriangles d T)

/-- A strict order on coordinates used to build the order-independent
dedup key. The JS code compares the stringified coordinates
(`p1 < p2` on arrays); any strict total order yields the same dedup
behaviour, because the key only has to determine the unordered pair
(stringification of JS arrays of numbers is injective, and the `_`
separator makes the concatenated key injective on unordered pairs), so
we use the numeric lexicographic order. -/
def coordLt (p q : Coord) : Bool :=
  decide (p.1 < q.1) || (decide (p.1 = q.1) && decide (p.2 < q.2))

/-- The order of `coordLt` lifted to possibly-undefined coordinates
(`undefined` stringifies to `"undefined"`; where it sorts is again
irrelevant for dedup). -/
def optLt : Option Coord → Option Coord → Bool
  | none, some _ => true
  | some p, some q => coordLt p q
  | _, _ => false

/-- The canonical key of `addIfNew`:
`(p1 < p2) ? p1 + "_" + p2 : p2 + "_" + p1` — the unordered pair
represented by the sorted pair. -/
def edgeKey (p q : Option Coord) : Option Coord × Option Coord :=
  if optLt p q then (p, q) else (q, p)

/-- The key of an edge as stored (the stored edge keeps the original
orientation `[p1, p2]`; its key is `edgeKey`). -/
def okey (e : Option Coord × Option Coord) : Option Coord × Option Coord :=
  edgeKey e.1 e.2

/-- The accumulator of the `getEdges` loop: the `drawn` key set and the
`edges` output list. -/
abbrev EdgeAcc : Type :=
  List (Option Coord × Option Coord) × List (Option Coord × Option Coord)

/-- `addIfNew(p1, p2)`: skip if the canonical key was already drawn,
otherwise record the key and push `[p1, p2]` in original order. -/
def addIfNew (acc : EdgeAcc) (p q : Option Coord) : EdgeAcc :=
  if edgeKey p q ∈ acc.1 then acc else (acc.1 ++ [edgeKey p q], acc.2 ++ [(p, q)])

/-- One iteration of the `getEdges` forEach over a triangle `t`:
`addIfNew(t[0], t[1]); addIfNew(t[1], t[2]); addIfNew(t[2], t[0])`. -/
def triStep (acc : EdgeAcc) (t : Option Coord × Option Coord × Option Coord) :
    EdgeAcc :=
  addIfNew (addIfNew (addIfNew acc t.1 t.2.1) t.2.1 t.2.2) t.2.2 t.1

/-- The edge list produced from a triangle list by the dedup loop. -/
def edgesFromTriangles
    (ts : List (Option Coord × Option Coord × Option Coord)) :
    List (Option Coord × Option Coord) :=
  (ts.foldl triStep ([], [])).2

/-- `getEdges()`: dedup the sides of `this.getTriangles()` (note: the
code calls `getTriangles` without the `indexes` flag, so the sides are
coordinate pairs). -/
def getEdges (d : List Coord → List ℕ) (T : Triangulator) :
    List (Option Coord × Option Coord) :=
  edgesFromTriangles (getTrianglesCo d T)

/-- The three sides of a triangle, in visiting order. -/
def triSides (t : Option Coord × Option Coord × Option Coord) :
    List (Option Coord × Option Coord) :=
  [(t.1, t.2.1), (t.2.1, t.2.2), (t.2.2, t.1)]

/-- All sides of a triangle list, in visiting order. -/
def allSides (ts : List (Option Coord × Option Coord × Option Coord)) :
    List (Option Coord × Option Coord) :=
  ts.foldr (fun t r => triSides t ++ r) []

/-- Follows the claim's words (not the source): the sides of a triangle
list as index pairs. -/
def idxSides (ts : List (ℕ × ℕ × ℕ)) : List (ℕ × ℕ) :=
  ts.foldr (fun t r => [(t.1, t.2.1), (t.2.1, t.2.2), (t.2.2, t.1)] ++ r) []

/-- Follows the claim's words (not the source): the order-independent
`(min, max)` key on an index pair. -/
def idxKey (e : ℕ × ℕ) : ℕ × ℕ := (min e.1 e.2, max e.1 e.2)

theorem coordLt_iff (p q : Coord) :
    coordLt p q = true ↔ (p.1 < q.1 ∨ (p.1 = q.1 ∧ p.2 < q.2)) := by
  simp [coordLt, Bool.or_eq_true, Bool.and_eq_true, decide_eq_true_eq]

theorem coordLt_asymm (p q : Coord) (h : coordLt p q = true) :
    coordLt q p = false := by
  simp only [← Bool.not_eq_true, coordLt_iff]
  rcases (coordLt_iff p q).mp h with h1 | ⟨h1, h2⟩
  · rintro (h' | ⟨h', _⟩)
    · exact absurd h1 (not_lt_of_gt h')
    · exact absurd h1 (not_lt_of_le h'.le)
  · rintro (h' | ⟨_, h'⟩)
    · exact absurd h' (not_lt_of_le h1.le)
    · exact absurd h2 (not_lt_of_gt h')

theorem coordLt_total (p q : Coord) (h1 : coordLt p q = false)
    (h2 : coordLt q p = false) : p = q := by
  rw [← Bool.not_eq_true, coordLt_iff] at h1 h2
  push_neg at h1 h2
  have hx : p.1 = q.1 := by
    rcases lt_trichotomy p.1 q.1 with h | h | h
    · exact absurd h (not_lt_of_le h1.1)
    · exact h
    · exact absurd h (not_lt_of_le h2.1)
  have hy : p.2 = q.2 := by
    rcases lt_trichotomy p.2 q.2 with h | h | h
    · exact absurd h (not_lt_of_le (h1.2 hx))
    · exact h
    · exact absurd h (not_lt_of_le (h2.2 hx.symm))
  exact Prod.ext hx hy

theorem edgeKey_symm (a b : Option Coord) : edgeKey a b = edgeKey b a := by
  rcases a with _ | p <;> rcases b with _ | q <;> simp [edgeKey, optLt]
  by_cases hb : coordLt p q = true
  · rw [if_pos hb]
    simp [coordLt_asymm p q hb]
  · rw [if_neg hb]
    by_cases hb' : coordLt q p = true
    · rw [if_pos hb']
    · rw [if_neg hb']
      rw [Bool.not_eq_true] at hb hb'
      rw [coordLt_total p q hb hb']

theorem foldl_triStep_eq
    (ts : List (Option Coord × Option Coord × Option Coord)) (acc : EdgeAcc) :
    ts.foldl triStep acc =
      (allSides ts).foldl (fun a e => addIfNew a e.1 e.2) acc := by
  induction ts generalizing acc with
  | nil => simp [allSides]
  | cons t rest ih =>
    have : allSides (t :: rest) = triSides t ++ allSides rest := rfl
    rw [List.foldl_cons, ih, this, List.foldl_append]
    rfl

theorem dedup_fold (l : List (Option Coord × Option Coord)) :
    ∀ acc : EdgeAcc, acc.2.map okey = acc.1 → acc.1.Nodup →
      (l.foldl (fun a e => addIfNew a e.1 e.2) acc).2.map okey
          = (l.foldl (fun a e => addIfNew a e.1 e.2) acc).1 ∧
        (l.foldl (fun a e => addIfNew a e.1 e.2) acc).1.Nodup ∧
        ∀ k, k ∈ (l.foldl (fun a e => addIfNew a e.1 e.2) acc).1 ↔
              (k ∈ acc.1 ∨ k ∈ l.map okey) := by
  induction l with
  | nil =>
    intro acc h1 h2
    refine ⟨h1, h2, fun k => ?_⟩
    simp
  | cons e rest ih =>
    intro acc h1 h2
    rw [List.foldl_cons]
    by_cases hk : edgeKey e.1 e.2 ∈ acc.1
    · have hstep : addIfNew acc e.1 e.2 = acc := by simp [addIfNew, hk]
      rw [hstep]
      obtain ⟨g1, g2, g3⟩ := ih acc h1 h2
      refine ⟨g1, g2, fun k => ?_⟩
      rw [g3]
      constructor
      · rintro (h | h)
        · exact Or.inl h
        · refine Or.inr ?_
          rw [List.map_cons, List.mem_cons]
          exact Or.inr h
      · rintro (h | h)
        · exact Or.inl h
        · rw [List.map_cons, List.mem_cons] at h
          rcases h with h | h
          · refine Or.inl ?_
            rw [h]
            exact hk
          · exact Or.inr h
    · have hstep : addIfNew acc e.1 e.2 =
          (acc.1 ++ [edgeKey e.1 e.2], acc.2 ++ [e]) := by
        simp [addIfNew, hk]
      rw [hstep]
      have h1' : (acc.2 ++ [e]).map okey = acc.1 ++ [edgeKey e.1 e.2] := by
        simp [h1, okey]
      have h2' : (acc.1 ++ [edgeKey e.1 e.2]).Nodup := by
        simp [List.nodup_append, h2, hk]
      obtain ⟨g1, g2, g3⟩ :=
        ih (acc.1 ++ [edgeKey e.1 e.2], acc.2 ++ [e]) h1' h2'
      refine ⟨g1, g2, fun k => ?_⟩
      rw [g3]
      constructor
      · rintro (hmem | hmem)
        · rcases List.mem_append.mp hmem with h | h
          · exact Or.inl h
          · refine Or.inr ?_
            rw [List.map_cons, List.mem_cons]
            exact Or.inl (List.mem_singleton.mp h)
        · refine Or.inr ?_
          rw [List.map_cons, List.mem_cons]
          exact Or.inr hmem
      · rintro (hmem | hmem)
        · exact Or.inl (List.mem_append.mpr (Or.inl hmem))
        · rw [List.map_cons, List.mem_cons] at hmem
          rcases hmem with h | h
          · exact Or.inl (List.mem_append.mpr (Or.inr (List.mem_singleton.mpr h)))
          · exact Or.inr h

/-- C3 (amended): `edges()` returns the triangle sides resolved to
coordinate pairs (not index pairs), deduplicated by an order-independent
canonical key on the unordered coordinate pair: the keys of the returned
edges are pairwise distinct (no side with the same unordered endpoint
coordinates appears twice), a key occurs among the returned edges
exactly when it occurs among the sides of the triangles (every triangle
side appears, merged with any side sharing its endpoint coordinates),
and the key is order-independent. -/
theorem edges_dedup (d : List Coord → List ℕ) (T : Triangulator) :
    ((getEdges d T).map okey).Nodup ∧
    (∀ k, k ∈ (getEdges d T).map okey ↔
          k ∈ (allSides (getTrianglesCo d T)).map okey) ∧
    (∀ a b : Option Coord, edgeKey a b = edgeKey b a) := by
  have hfold := foldl_triStep_eq (getTrianglesCo d T) ([], [])
  obtain ⟨g1, g2, g3⟩ :=
    dedup_fold (allSides (getTrianglesCo d T)) ([], []) rfl List.nodup_nil
  have hedges : (getEdges d T).map okey =
      ((allSides (getTrianglesCo d T)).foldl
        (fun a e => addIfNew a e.1 e.2) ([], [])).1 := by
    rw [getEdges, edgesFromTriangles, hfold, g1]
  refine ⟨?_, fun k => ?_, edgeKey_symm⟩
  · rw [hedges]; exact g2
  · rw [hedges, g3 k]
    simp

/-- A mesh whose first user point duplicates the corner (0,0): two
distinct effective indices (0 and 4) carry the same coordinate. -/
def cexT : Triangulator :=
  { size := { w := 1, h := 1 },
    points := [{ coord := (0, 0), toDelete := false }] }

/-- A Delaunay oracle (legal under the black-box contract) returning two
triangles, one referencing index 0 and one the duplicate index 4. -/
def cexD : List Coord → List ℕ := fun _ => [0, 1, 2, 4, 1, 2]

/-- C3 counterexample: for `cexT`/`cexD` the edge list has 3 entries,
while the number of distinct `(min, max)` index pairs over all triangle
sides is 5 — the claim's count equality fails, because `getEdges`
deduplicates the sides resolved to coordinates (the code calls
`getTriangles()` without the index flag), so the sides `{0,1}` and
`{1,4}` (and `{0,2}`, `{2,4}`) collapse when indices 0 and 4 share a
coordinate. -/
theorem edges_index_count_cex :
    (getEdges cexD cexT).length = 3 ∧
    ((idxSides (getTriangles cexD cexT)).map idxKey).dedup.length = 5 ∧
    (3 : ℕ) ≠ 5 := by
  have hco : effCoords cexT =
      [((0 : ℚ), (0 : ℚ)), (1, 0), (0, 1), (1, 1), (0, 0)] := by
    simp [effCoords, cexT, getEffectivePoints, corners, createPoint,
      mathRound_zero, mathRound_one]
  refine ⟨?_, by decide, by decide⟩
  simp only [getEdges, getTrianglesCo, getTriangles, hco]
  decide

/-- Modelled from the spec: `ABOUtils.Math.lerp` is not part of this
repository; the spec defines it as "the per-coordinate linear
interpolation `co1 + t*(co2 - co1)`". -/
def lerpList (co1 co2 : List Coord) (t : ℚ) : List Coord :=
  List.zipWith
    (fun p q => (p.1 + t * (q.1 - p.1), p.2 + t * (q.2 - p.2))) co1 co2

/-- The destination coordinate list of `warpImage`: the target's
effective coordinates, replaced by `lerp(co1, co2, lerpT)` when a lerp
parameter is supplied (the JS guard `lerpT || lerpT === 0` accepts every
supplied number). -/
def warpCo2 (src tgt : Triangulator) (lerpT : Option ℚ) : List Coord :=
  match lerpT with
  | none => effCoords tgt
  | some t => lerpList (effCoords src) (effCoords tgt) t

/-- One emitted frame of `warpImage`, as data: the cleared rectangle
(the target's size) and the `drawTriangle` calls, each one the source
corner triple and the destination corner triple. -/
structure Frame where
  clearW : ℚ
  clearH : ℚ
  draws : List ((Option Coord × Option Coord × Option Coord) ×
                (Option Coord × Option Coord × Option Coord))
  deriving Repr

/-- `warpImage(img, triSource, triTarget, canvas, lerpT)`: takes
`triSource`'s index triples as the topology (the source also computes
`tri2 = triTarget.getTriangles(true)`, which is never used afterwards),
resolves every triple in `co1` and `co2`, clears the canvas and draws
each triangle. There is no precondition check of any kind. -/
def warpImage (d : List Coord → List ℕ) (src tgt : Triangulator)
    (lerpT : Option ℚ) : Frame :=
  let tri1 := getTriangles d src
  let co1 := effCoords src
  let co2 := warpCo2 src tgt lerpT
  { clearW := tgt.size.w, clearH := tgt.size.h,
    draws := tri1.map fun t =>
      ((co1[t.1]?, co1[t.2.1]?, co1[t.2.2]?),
       (co2[t.1]?, co2[t.2.1]?, co2[t.2.2]?)) }

theorem lerpList_zero (l1 l2 : List Coord) (h : l1.length = l2.length) :
    lerpList l1 l2 0 = l1 := by
  induction l1 generalizing l2 with
  | nil => simp [lerpList]
  | cons p l1 ih =>
    cases l2 with
    | nil => simp at h
    | cons q l2 =>
      simp only [List.length_cons, Nat.add_right_cancel_iff] at h
      have ih' := ih l2 h
      simp only [lerpList] at ih' ⊢
      have hd : ((p.1 + 0 * (q.1 - p.1), p.2 + 0 * (q.2 - p.2)) : Coord) = p := by
        have h1 : p.1 + 0 * (q.1 - p.1) = p.1 := by ring
        have h2 : p.2 + 0 * (q.2 - p.2) = p.2 := by ring
        rw [h1, h2]
      rw [List.zipWith_cons_cons, ih', hd]

theorem lerpList_one (l1 l2 : List Coord) (h : l1.length = l2.length) :
    lerpList l1 l2 1 = l2 := by
  induction l1 generalizing l2 with
  | nil =>
    cases l2 with
    | nil => simp [lerpList]
    | cons q l2 => simp at h
  | cons p l1 ih =>
    cases l2 with
    | nil => simp at h
    | cons q l2 =>
      simp only [List.length_cons, Nat.add_right_cancel_iff] at h
      have ih' := ih l2 h
      simp only [lerpList] at ih' ⊢
      have hd : ((p.1 + 1 * (q.1 - p.1), p.2 + 1 * (q.2 - p.2)) : Coord) = q := by
        have h1 : p.1 + 1 * (q.1 - p.1) = q.1 := by ring
        have h2 : p.2 + 1 * (q.2 - p.2) = q.2 := by ring
        rw [h1, h2]
      rw [List.zipWith_cons_cons, ih', hd]

/-- A mesh pair with no user points (so equal effective point counts)
and different domain sizes (so different effective coordinates). -/
def srcW : Triangulator := { size := { w := 2, h := 2 }, points := [] }

/-- See `srcW`. -/
def tgtW : Triangulator := { size := { w := 3, h := 3 }, points := [] }

/-- C5: when the lerp parameter is supplied, the destination coordinates
of `warpImage` are the per-coordinate linear interpolation
`co1 + t*(co2 - co1)`; hence (for meshes with equally long effective
coordinate lists) at `t = 0` they equal the source mesh's effective
coordinates exactly, and at `t = 1` the target mesh's. -/
theorem warp_lerp_boundary (src tgt : Triangulator)
    (h : (effCoords src).length = (effCoords tgt).length) :
    (∀ t, warpCo2 src tgt (some t) =
          lerpList (effCoords src) (effCoords tgt) t) ∧
    warpCo2 src tgt (some 0) = effCoords src ∧
    warpCo2 src tgt (some 1) = effCoords tgt := by
  refine ⟨fun t => rfl, ?_, ?_⟩
  · exact lerpList_zero _ _ h
  · exact lerpList_one _ _ h

/-- Witness for `warp_lerp_boundary` at a concrete mesh pair. -/
theorem warp_lerp_boundary_witness :
    warpCo2 srcW tgtW (some 0) = effCoords srcW :=
  (warp_lerp_boundary srcW tgtW rfl).2.1

/-- A mesh pair with unequal point counts (1 vs 0). -/
def srcU : Triangulator :=
  { size := { w := 400, h := 400 },
    points := [{ coord := (10, 10), toDelete := false }] }

/-- See `srcU`. -/
def tgtU : Triangulator := { size := { w := 400, h := 400 }, points := [] }

/-- An oracle returning a single triangle. -/
def dU : List Coord → List ℕ := fun _ => [0, 1, 2]

/-- C2 counterexample: a mesh pair with unequal point counts on which
`warpImage` still produces a frame (a non-empty draw list) — nothing in
`warpImage` or `warp` checks the counts, so it does not refuse to
run. -/
theorem warp_unequal_cex :
    srcU.points.length ≠ tgtU.points.length ∧
    (warpImage dU srcU tgtU none).draws ≠ [] := by
  constructor
  · decide
  · simp [warpImage, getTriangles, dU, toTriples]

/-- C2 (amended): `warpImage` performs no equal-count precondition
check: for every oracle, every mesh pair — with equal or unequal point
counts — and every lerp parameter, it clears the destination and emits
exactly one draw per source-mesh triangle. -/
theorem warpImage_always_draws (d : List Coord → List ℕ)
    (src tgt : Triangulator) (lerpT : Option ℚ) :
    (warpImage d src tgt lerpT).draws.length = (getTriangles d src).length := by
  simp [warpImage]

/-- C8: the topology of `warpImage` is the source mesh's triangulation
alone: two Delaunay oracles that agree on the source's effective
coordinates yield identical frames, whatever they return for the
target's coordinates (the target's own triangulation is computed by the
source code but never used). -/
theorem warpImage_source_topology (d1 d2 : List Coord → List ℕ)
    (src tgt : Triangulator) (lerpT : Option ℚ)
    (h : d1 (effCoords src) = d2 (effCoords src)) :
    warpImage d1 src tgt lerpT = warpImage d2 src tgt lerpT := by
  simp [warpImage, getTriangles, h]

/-- An oracle agreeing with `dA` on `srcW`'s coordinates but not on
`tgtW`'s. -/
def dB : List Coord → List ℕ :=
  fun cs => if cs = effCoords srcW then [0, 1, 2] else [2, 1, 0]

/-- An oracle returning a single fixed triangle. -/
def dA : List Coord → List ℕ := fun _ => [0, 1, 2]

/-- Witness for `warpImage_source_topology`: `dA` and `dB` differ on the
target's coordinates yet produce the same frame. -/
theorem warpImage_source_topology_witness :
    warpImage dA srcW tgtW none = warpImage dB srcW tgtW none :=
  warpImage_source_topology dA dB srcW tgtW none (by simp [dA, dB])

/-- `deleteThreshold = 20` in the drag-tracker setup. -/
def deleteThreshold : ℚ := 20

/-- The drag-tracker callback, together with the coordinate storage that
the (external) drag-node performs with the dispatched `dragging` event —
the spec's `movePoint`: a drag to `pos` with `y < -deleteThreshold`
sets the point's `toDelete` flag and keeps the raw position
(`normPos = pos`); any other drag stores the position clamped to
`[0,w] × [0,h]` and leaves the flag unchanged (the code never resets
it). -/
def movePoint (w h : ℚ) (p : Point) (pos : ℚ × ℚ) : Point :=
  if pos.2 < -deleteThreshold then { coord := pos, toDelete := true }
  else { coord := (clamp pos.1 0 w, clamp pos.2 0 h), toDelete := p.toDelete }

/-- C4: moving a point stores its coordinate clamped to
`[0,w] × [0,h]`, except that a vertical coordinate more than 20 units
above the top edge (`y < -20`) marks the point for deletion instead; in
a 400×400 domain a move to `(450,-10)` stores `(400,0)` without marking,
`y = -19` clamps, and `y = -21` marks for deletion. -/
theorem movePoint_clamp_or_mark :
    (∀ (w h : ℚ) (p : Point) (pos : ℚ × ℚ),
      (pos.2 < -deleteThreshold →
        movePoint w h p pos = { coord := pos, toDelete := true }) ∧
      (¬pos.2 < -deleteThreshold →
        movePoint w h p pos =
          { coord := (clamp pos.1 0 w, clamp pos.2 0 h),
            toDelete := p.toDelete })) ∧
    movePoint 400 400 { coord := (0, 0), toDelete := false } (450, -10) =
      { coord := (400, 0), toDelete := false } ∧
    movePoint 400 400 { coord := (0, 0), toDelete := false } (100, -19) =
      { coord := (100, 0), toDelete := false } ∧
    (movePoint 400 400 { coord := (0, 0), toDelete := false }
      (100, -21)).toDelete = true := by
  refine ⟨fun w h p pos => ⟨fun hlt => ?_, fun hge => ?_⟩, ?_, ?_, ?_⟩
  · rw [movePoint, if_pos hlt]
  · rw [movePoint, if_neg hge]
  · rw [movePoint, if_neg (by norm_num [deleteThreshold])]
    norm_num [clamp, min_def, max_def]
  · rw [movePoint, if_neg (by norm_num [deleteThreshold])]
    norm_num [clamp, min_def, max_def]
  · rw [movePoint, if_pos (by norm_num [deleteThreshold])]

/-- Witness for `movePoint_clamp_or_mark`: a drag to `(30, -25)` marks
the point for deletion and keeps the raw position. -/
theorem movePoint_clamp_or_mark_witness :
    movePoint 400 400 { coord := (0, 0), toDelete := false } (30, -25) =
      { coord := ((30 : ℚ), (-25 : ℚ)), toDelete := true } :=
  (movePoint_clamp_or_mark.1 400 400
    { coord := (0, 0), toDelete := false } (30, -25)).1
    (by norm_num [deleteThreshold])

/-- The while loop of `onAdded`:
`while (targetPoints.length < sourcePoints.length)
  target.addPoint(sourcePoints[targetPoints.length].coord)`.
The loop is condition-driven; `fuel = sourcePoints.length` always
suffices because each iteration grows the target by one. -/
def balanceGo (src : List Point) : ℕ → List Point → List Point
  | 0, tgt => tgt
  | fuel + 1, tgt =>
    if tgt.length < src.length then
      balanceGo src fuel
        (tgt ++ [createPoint (src.getD tgt.length
          { coord := (0, 0), toDelete := false }).coord])
    else tgt

/-- `onAdded()`: `source` is the mesh with more points, `target` the
other; append to the target copies (through `addPoint`, hence rounded by
`createPoint`) of the source coordinates at the indices the target is
missing, until the lengths match. -/
def onAdded (s : Triangulator × Triangulator) : Triangulator × Triangulator :=
  if s.2.points.length < s.1.points.length then
    (s.1, { s.2 with points := balanceGo s.1.points s.1.points.length s.2.points })
  else
    ({ s.1 with points := balanceGo s.2.points s.2.points.length s.1.points },
     s.2)

/-- `onDeleted(index)`: Vue's `$delete` on both point arrays, which is
`Array.splice(index, 1)` — it removes the element at `index` and is a
no-op when the index is past the end. -/
def onDeleted (s : Triangulator × Triangulator) (i : ℕ) :
    Triangulator × Triangulator :=
  ({ s.1 with points := s.1.points.eraseIdx i },
   { s.2 with points := s.2.points.eraseIdx i })

/-- The point-count-changing operations the UI funnels through the
synchronizer: a click adds a point to one mesh and then `onAdded`
balances; a delete removes the point at an index from both meshes. -/
inductive SyncOp where
  | addA (c : Coord)
  | addB (c : Coord)
  | del (i : ℕ)

/-- Apply one synchronizer operation to a mesh pair. -/
def applySync (s : Triangulator × Triangulator) :
    SyncOp → Triangulator × Triangulator
  | .addA c => onAdded (addPoint s.1 c, s.2)
  | .addB c => onAdded (s.1, addPoint s.2 c)
  | .del i => onDeleted s i

/-- Apply a sequence of synchronizer operations. -/
def runSync (ops : List SyncOp) (s : Triangulator × Triangulator) :
    Triangulator × Triangulator :=
  ops.foldl applySync s

theorem balanceGo_length (src : List Point) :
    ∀ (fuel : ℕ) (tgt : List Point), src.length ≤ fuel + tgt.length →
      (balanceGo src fuel tgt).length = max src.length tgt.length := by
  intro fuel
  induction fuel with
  | zero =>
    intro tgt h
    rw [balanceGo, Nat.max_eq_right (by omega)]
  | succ fuel ih =>
    intro tgt h
    rw [balanceGo]
    by_cases hlt : tgt.length < src.length
    · rw [if_pos hlt]
      rw [ih _ (by simp; omega)]
      simp only [List.length_append, List.length_cons, List.length_nil]
      omega
    · rw [if_neg hlt]
      rw [Nat.max_eq_right (by omega)]

theorem onAdded_eqLen (s : Triangulator × Triangulator) :
    (onAdded s).1.points.length = (onAdded s).2.points.length := by
  rw [onAdded]
  by_cases hlt : s.2.points.length < s.1.points.length
  · rw [if_pos hlt]
    show s.1.points.length =
      (balanceGo s.1.points s.1.points.length s.2.points).length
    rw [balanceGo_length s.1.points s.1.points.length s.2.points (by omega)]
    omega
  · rw [if_neg hlt]
    show (balanceGo s.2.points s.2.points.length s.1.points).length
      = s.2.points.length
    rw [balanceGo_length s.2.points s.2.points.length s.1.points (by omega)]
    omega

theorem length_eraseIdx_eq (l : List α) (i : ℕ) :
    (l.eraseIdx i).length = if i < l.length then l.length - 1 else l.length := by
  induction l generalizing i with
  | nil => simp [List.eraseIdx]
  | cons a l ih =>
    cases i with
    | zero => simp [List.eraseIdx]
    | succ i =>
      simp only [List.eraseIdx, List.length_cons, ih]
      split_ifs <;> omega

theorem eraseIdx_out (l : List α) (i : ℕ) (h : l.length ≤ i) :
    l.eraseIdx i = l := by
  induction l generalizing i with
  | nil => simp [List.eraseIdx]
  | cons a l ih =>
    simp only [List.length_cons] at h
    cases i with
    | zero => omega
    | succ i =>
      simp only [List.eraseIdx]
      rw [ih i (by omega)]

/-- C1: for every sequence of add and delete operations applied through
the synchronizer to a mesh pair whose point lists start with equal
lengths, the two point lists have equal length after each operation
(every prefix of a sequence is itself a sequence): add-balancing appends
to the shorter list copies of the longer list's coordinates at the
missing indices until the lengths match, and delete-balancing removes
the point at the given index from both meshes. -/
theorem sync_length_invariant (ops : List SyncOp)
    (s : Triangulator × Triangulator)
    (h : s.1.points.length = s.2.points.length) :
    (runSync ops s).1.points.length = (runSync ops s).2.points.length := by
  induction ops generalizing s with
  | nil => simpa [runSync] using h
  | cons op rest ih =>
    have hstep : (applySync s op).1.points.length
        = (applySync s op).2.points.length := by
      cases op with
      | addA c => exact onAdded_eqLen _
      | addB c => exact onAdded_eqLen _
      | del i =>
        show (s.1.points.eraseIdx i).length = (s.2.points.eraseIdx i).length
        rw [length_eraseIdx_eq, length_eraseIdx_eq, h]
    exact ih _ hstep

/-- A mesh with no points and the default 400×400 size. -/
def emptyT : Triangulator := { size := { w := 400, h := 400 }, points := [] }

/-- Witness for `sync_length_invariant`: an add followed by a delete,
starting from two empty meshes. -/
theorem sync_length_invariant_witness :
    (runSync [SyncOp.addA (10, 10), SyncOp.del 0]
      (emptyT, emptyT)).1.points.length =
    (runSync [SyncOp.addA (10, 10), SyncOp.del 0]
      (emptyT, emptyT)).2.points.length :=
  sync_length_invariant _ _ rfl

/-- A mesh pair with one point in each mesh. -/
def s7 : Triangulator × Triangulator :=
  ({ size := { w := 400, h := 400 },
     points := [{ coord := (1, 2), toDelete := false }] },
   { size := { w := 400, h := 400 },
     points := [{ coord := (3, 4), toDelete := false }] })

/-- C7 counterexample: deleting at the out-of-range index 5 leaves both
meshes unchanged and raises nothing — `$delete`/`Array.splice` past the
end of the array is a silent no-op, so the core does not signal an
invalid-argument condition. -/
theorem onDeleted_out_of_range_cex : onDeleted s7 5 = s7 := rfl

/-- C7 (amended): a delete with an index out of range for both point
lists silently leaves both meshes unchanged; no error condition is
raised. -/
theorem onDeleted_out_of_range (s : Triangulator × Triangulator) (i : ℕ)
    (h1 : s.1.points.length ≤ i) (h2 : s.2.points.length ≤ i) :
    onDeleted s i = s := by
  rw [onDeleted, eraseIdx_out _ _ h1, eraseIdx_out _ _ h2]

/-- Witness for `onDeleted_out_of_range` at index 0 on empty meshes. -/
theorem onDeleted_out_of_range_witness :
    onDeleted (emptyT, emptyT) 0 = (emptyT, emptyT) :=
  onDeleted_out_of_range (emptyT, emptyT) 0 (Nat.le_refl 0) (Nat.le_refl 0)

/-- The state of one animation handle. Modelled from the spec: the
`ud.animate` handles are not part of this repository; the spec's Morph
Animator is a state machine `Idle → Running → Idle` (on `cancel()` or on
natural completion), with `cancel()` idempotent. -/
inductive AnimStatus where
  | running
  | idle
  deriving DecidableEq, Repr

/-- The animation world: every handle ever created by `ud.animate`, and
`morphAnim`, the handle the app currently holds (`null` initially). -/
structure AnimWorld where
  anims : List AnimStatus
  cur : Option ℕ
  deriving DecidableEq, Repr

/-- `stopAnim()`: `if (this.morphAnim) this.morphAnim.cancel()` —
cancelling moves the held handle to Idle (modelled from the spec for the
external `cancel`, which is idempotent: an Idle handle stays Idle). -/
def stopAnim (w : AnimWorld) : AnimWorld :=
  match w.cur with
  | none => w
  | some i => { w with anims := w.anims.set i .idle }

/-- `warp()`: `this.stopAnim(); this.morphAnim = ud.animate(...)` —
cancel the held animation first, then create a new Running handle and
hold it. -/
def warp (w : AnimWorld) : AnimWorld :=
  { anims := (stopAnim w).anims ++ [.running],
    cur := some (stopAnim w).anims.length }

/-- The app-level events that touch the animator: `warp()` and
`stopAnim()` (the natural completion of the held animation idles that
handle, so it acts on the world like `stopAnim` and is covered by
`stopOp`). -/
inductive AnimOp where
  | warpOp
  | stopOp

/-- Apply one animator event. -/
def applyAnim (w : AnimWorld) : AnimOp → AnimWorld
  | .warpOp => warp w
  | .stopOp => stopAnim w

/-- Apply a sequence of animator events. -/
def runAnim (ops : List AnimOp) (w : AnimWorld) : AnimWorld :=
  ops.foldl applyAnim w

/-- The initial world: no handles, `morphAnim: null`. -/
def initWorld : AnimWorld := { anims := [], cur := none }

/-- The number of Running handles. -/
def countRunning (w : AnimWorld) : ℕ :=
  w.anims.countP (fun a => a == AnimStatus.running)

/-- The reachability invariant: only the held handle can be Running, and
the held index is in range. -/
def AnimInv (w : AnimWorld) : Prop :=
  (∀ j : ℕ, w.anims[j]? = some AnimStatus.running → w.cur = some j) ∧
  (∀ i : ℕ, w.cur = some i → i < w.anims.length)

theorem stopAnim_no_running (w : AnimWorld) (h : AnimInv w) :
    ∀ j : ℕ, (stopAnim w).anims[j]? ≠ some AnimStatus.running := by
  intro j
  cases hc : w.cur with
  | none =>
    simp only [stopAnim, hc]
    intro heq
    have := h.1 j heq
    rw [hc] at this
    exact Option.noConfusion this
  | some i =>
    simp only [stopAnim, hc]
    intro heq
    by_cases hji : j = i
    · subst hji
      rw [List.getElem?_set_self (h.2 j hc)] at heq
      exact AnimStatus.noConfusion (Option.some.inj heq)
    · rw [List.getElem?_set_ne (fun he => hji he.symm)] at heq
      have := h.1 j heq
      rw [hc] at this
      exact hji (Option.some.inj this).symm

theorem stopAnim_inv (w : AnimWorld) (h : AnimInv w) : AnimInv (stopAnim w) := by
  constructor
  · intro j hj
    exact absurd hj (stopAnim_no_running w h j)
  · intro i hi
    cases hc : w.cur with
    | none =>
      simp only [stopAnim, hc] at hi ⊢
      exact Option.noConfusion hi
    | some k =>
      simp only [stopAnim, hc] at hi ⊢
      rw [List.length_set]
      obtain rfl : k = i := Option.some.inj hi
      exact h.2 k hc

theorem warp_inv (w : AnimWorld) (h : AnimInv w) : AnimInv (warp w) := by
  have hnr := stopAnim_no_running w h
  constructor
  · intro j hj
    simp only [warp] at hj ⊢
    rcases lt_trichotomy j (stopAnim w).anims.length with hlt | heq | hgt
    · rw [List.getElem?_append_left hlt] at hj
      exact absurd hj (hnr j)
    · rw [heq]
    · have hnone : ((stopAnim w).anims ++ [AnimStatus.running])[j]? = none := by
        apply List.getElem?_eq_none
        simp only [List.length_append, List.length_cons, List.length_nil]
        omega
      rw [hnone] at hj
      exact Option.noConfusion hj
  · intro i hi
    simp only [warp] at hi ⊢
    have : (stopAnim w).anims.length = i := Option.some.inj hi
    simp only [List.length_append, List.length_cons, List.length_nil]
    omega

theorem runAnim_inv (ops : List AnimOp) (w : AnimWorld) (h : AnimInv w) :
    AnimInv (runAnim ops w) := by
  induction ops generalizing w with
  | nil => simpa [runAnim] using h
  | cons op rest ih =>
    have hstep : AnimInv (applyAnim w op) := by
      cases op with
      | warpOp => exact warp_inv w h
      | stopOp => exact stopAnim_inv w h
    exact ih _ hstep

theorem initWorld_inv : AnimInv initWorld := by
  constructor
  · intro j hj
    simp [initWorld] at hj
  · intro i hi
    simp [initWorld] at hi

theorem countP_le_one_of_unique {α : Type} (p : α → Bool) :
    ∀ l : List α,
      (∀ (j k : ℕ) (a b : α), l[j]? = some a → l[k]? = some b →
        p a = true → p b = true → j = k) →
      l.countP p ≤ 1 := by
  intro l
  induction l with
  | nil =>
    intro _
    simp
  | cons x xs ih =>
    intro h
    rw [List.countP_cons]
    by_cases hx : p x = true
    · rw [if_pos hx]
      have hz : xs.countP p = 0 := by
        rw [List.countP_eq_zero]
        intro a ha hpa
        obtain ⟨j, hj⟩ := List.getElem?_of_mem ha
        have h0 : (x :: xs)[0]? = some x := by simp
        have hj1 : (x :: xs)[j + 1]? = some a := by simpa using hj
        have := h (j + 1) 0 a x hj1 h0 hpa hx
        omega
      omega
    · rw [if_neg hx]
      have hle : xs.countP p ≤ 1 := by
        apply ih
        intro j k a b hj hk hpa hpb
        have hj1 : (x :: xs)[j + 1]? = some a := by simpa using hj
        have hk1 : (x :: xs)[k + 1]? = some b := by simpa using hk
        have := h (j + 1) (k + 1) a b hj1 hk1 hpa hpb
        omega
      omega

theorem inv_countRunning (w : AnimWorld) (h : AnimInv w) :
    countRunning w ≤ 1 := by
  apply countP_le_one_of_unique
  intro j k a b hj hk hpa hpb
  rw [beq_iff_eq] at hpa hpb
  subst hpa
  subst hpb
  have h1 := h.1 j hj
  have h2 := h.1 k hk
  rw [h1] at h2
  exact Option.some.inj h2

/-- C9: over every sequence of `warp`/`stopAnim` events starting from
the idle app (`morphAnim = null`) at most one animation handle is ever
Running (starting a new animation implicitly cancels the held one, so no
two animations run concurrently); `warp` idles the previously held
handle before the new one starts; and `cancel` is idempotent and a safe
no-op when nothing is held (Idle). -/
theorem anim_exclusive :
    (∀ ops : List AnimOp, countRunning (runAnim ops initWorld) ≤ 1) ∧
    (∀ w : AnimWorld, stopAnim (stopAnim w) = stopAnim w) ∧
    (∀ w : AnimWorld, w.cur = none → stopAnim w = w) ∧
    (∀ (w : AnimWorld) (i : ℕ), w.cur = some i → i < w.anims.length →
      ((warp w).anims)[i]? = some AnimStatus.idle) := by
  refine ⟨?_, ?_, ?_, ?_⟩
  · intro ops
    exact inv_countRunning _ (runAnim_inv ops initWorld initWorld_inv)
  · intro w
    cases hc : w.cur with
    | none => simp [stopAnim, hc]
    | some i => simp [stopAnim, hc, List.set_set]
  · intro w hw
    simp [stopAnim, hw]
  · intro w i hc hlen
    simp only [warp]
    have hlen2 : i < (stopAnim w).anims.length := by
      simp only [stopAnim, hc, List.length_set]
      exact hlen
    rw [List.getElem?_append_left hlen2]
    simp only [stopAnim, hc]
    exact List.getElem?_set_self hlen

/-- Witness for `anim_exclusive`: cancelling when nothing is held leaves
the world unchanged. -/
theorem anim_exclusive_witness : stopAnim initWorld = initWorld :=
  anim_exclusive.2.2.1 initWorld rfl

end MorphTool
